import Mathlib

/-!
Verification of the `exception` repository (packages `throw` and `try`).

The Go source is embedded shallowly:

* `throw.Error` becomes `Exc.Error`; its `Context` field
  (`map[string]interface{}`, `nil` until first write) becomes
  `Option Ctx` with `Ctx` an association list looked up at the most
  recent binding (Go map assignment is modelled by consing, so lookup
  sees the last write).  Values of `interface{}` type are modelled by
  the small sum `Exc.Val` (spec §9 explicitly allows a closed sum here).
* A panic payload (`recover()`'s result at the engine's recovery point)
  becomes `Exc.Payload`: an `Error`, the `throw.Pass{}` marker, or an
  arbitrary other value.
* `runtime.Stack` capture is nondeterministic runtime input; each
  function that calls `throw.GetPanicStack` takes the captured text as
  an explicit `stack : String` argument.
* Go handler and filter *functions* are side-effecting; the engine only
  ever calls them.  A handler is modelled by an identifying token
  (`Nat`), a filter by a token paired with its decision function
  `Error → Bool`, and execution returns the ordered trace of
  invocation `Event`s, which is exactly the observable behaviour the
  spec's ordering clauses talk about.
* Go maps `map[int]X` used by the engine (lookup / overwrite-assign /
  append only) become association lists with `mapGet` / `mapSet` /
  `mapAppend`.
* `panic`/normal-return of the engine's `Finally` call becomes the
  `Outcome` of a `RunResult`.
* For `throw.Error.WithContext` the Go map is a *reference*: the
  receiver is copied by value but its `Context` field aliases the
  caller's map.  `Exc.Refs` re-embeds the error with the map reference
  made explicit as an index into a `Heap`, so aliasing is observable.
-/

namespace Exc

/-- Values stored in a context map (`interface{}` in Go), closed to the
kinds the tests exercise: integers and strings. -/
inductive Val where
  | vint : Int → Val
  | vstr : String → Val
deriving DecidableEq, Repr

/-- Go `%v` formatting of a raw value. -/
def Val.display : Val → String
  | .vint n => toString n
  | .vstr s => s

/-- Go `%T` formatting (dynamic type name) of a raw value. -/
def Val.typeName : Val → String
  | .vint _ => "int"
  | .vstr _ => "string"

/-- A context map: association list, most recent binding wins. -/
abbrev Ctx := List (String × Val)

/-- Map lookup: the most recently written binding for `k`. -/
def ctxLookup : Ctx → String → Option Val
  | [], _ => none
  | p :: rest, k => if p.1 = k then some p.2 else ctxLookup rest k

/-- `throw.FallbackErrorIndex = math.MinInt` (64-bit). -/
def FallbackErrorIndex : Int := -(2 ^ 63)

/-- `throw.Error`: the classified-error payload.  `context = none`
models a `nil` Go map. -/
structure Error where
  index : Int
  message : String
  stack : String
  context : Option Ctx
deriving DecidableEq, Repr

/-- `throw.Index`: the `Error` value that `throw.Index(index, message)`
panics with, given the stack text captured at the raise site
(`Context` is left `nil`). -/
def Index (stack : String) (index : Int) (message : String) : Error :=
  { index := index, message := message, stack := stack, context := none }

/-- `throw.Err(err)`: panics with `Index(FallbackErrorIndex, err.Error())`
iff `err != nil`.  A Go `error` is modelled as `Option String`
(`none` = nil, `some m` = an error whose `Error()` method returns `m`);
`some e` in the result means the call panics with payload `e`,
`none` means it returns normally. -/
def Err (stack : String) (err : Option String) : Option Error :=
  match err with
  | some m => some (Index stack FallbackErrorIndex m)
  | none => none

/-- `throw.ValueErr(value, err)`: panics like `Err` when `err != nil`,
otherwise returns `value`. -/
def ValueErr {α : Type} (stack : String) (value : α) (err : Option String) :
    Except Error α :=
  match err with
  | some m => Except.error (Index stack FallbackErrorIndex m)
  | none => Except.ok value

/-- What the protected block's `panic` carries to the recovery point:
a `throw.Error`, the `throw.Pass{}` marker, or any other value. -/
inductive Payload where
  | err : Error → Payload
  | pass : Payload
  | other : Val → Payload
deriving DecidableEq, Repr

/-- Observable actions of one engine execution, in program order. -/
inductive Event where
  | filterEval : Nat → Bool → Event
  | handlerRun : Nat → Error → Event
  | finallyRun : Nat → Event
deriving DecidableEq, Repr

/-- A registered filter: its identity plus its decision function. -/
abbrev Filter := Nat × (Error → Bool)

/-- Association-list lookup for the engine's `map[int]·` registries. -/
def mapGet {β : Type} : List (Int × β) → Int → Option β
  | [], _ => none
  | p :: rest, k => if p.1 = k then some p.2 else mapGet rest k

/-- Go map assignment `m[k] = v`: overwrite if present, else add. -/
def mapSet {β : Type} : List (Int × β) → Int → β → List (Int × β)
  | [], k, v => [(k, v)]
  | (k', v') :: rest, k, v =>
      if k' = k then (k, v) :: rest else (k', v') :: mapSet rest k v

/-- Go `m[k] = append(m[k], h)`: append to the (possibly absent,
hence empty) sequence at `k`. -/
def mapAppend (m : List (Int × List Nat)) (k : Int) (h : Nat) :
    List (Int × List Nat) :=
  mapSet m k ((mapGet m k).getD [] ++ [h])

/-- `try.Try`: the dispatch engine.  The protected block is modelled by
its sole observable at the recovery point: `none` = returns normally,
`some p` = panics with `p`. -/
structure Try where
  specificHandlers : List (Int × Nat)
  groupHandlers : List (Int × List Nat)
  globalHandler : Option Nat
  fallbackHandler : Option Nat
  tryFunc : Option Payload
  filters : List Filter

/-- `try.Run`: fresh engine bound to a protected block. -/
def Run (tryHandler : Option Payload) : Try :=
  { specificHandlers := []
    groupHandlers := []
    globalHandler := none
    fallbackHandler := none
    tryFunc := tryHandler
    filters := [] }

/-- `(*Try).Index`: register a specific-code handler; silently ignores
a nil handler and the reserved codes `0` and `FallbackErrorIndex`. -/
def Try.Index (ts : Try) (index : Int) (handler : Option Nat) : Try :=
  match handler with
  | some h =>
      if index ≠ 0 ∧ index ≠ FallbackErrorIndex then
        { ts with specificHandlers := mapSet ts.specificHandlers index h }
      else ts
  | none => ts

/-- `(*Try).Catch`: register the global handler (nil is a no-op). -/
def Try.Catch (ts : Try) (handler : Option Nat) : Try :=
  match handler with
  | some h => { ts with globalHandler := some h }
  | none => ts

/-- `(*Try).Unknown`: register the fallback handler (nil is a no-op). -/
def Try.Unknown (ts : Try) (handler : Option Nat) : Try :=
  match handler with
  | some h => { ts with fallbackHandler := some h }
  | none => ts

/-- Body of `(*Try).Group`'s loop: append the handler to one code's
sequence unless the code is reserved. -/
def groupStep (h : Nat) (t : Try) (index : Int) : Try :=
  if index ≠ 0 ∧ index ≠ FallbackErrorIndex then
    { t with groupHandlers := mapAppend t.groupHandlers index h }
  else t

/-- `(*Try).Group`: for each code in `group` other than `0` and
`FallbackErrorIndex`, append the handler to that code's sequence;
a no-op when the handler is nil or the list is empty. -/
def Try.Group (ts : Try) (group : List Int) (handler : Option Nat) : Try :=
  match handler with
  | some h =>
      if group.length > 0 then group.foldl (groupStep h) ts else ts
  | none => ts

/-- `(*Try).Filter`: append a filter (nil is a no-op). -/
def Try.Filter (ts : Try) (filter : Option Filter) : Try :=
  match filter with
  | some f => { ts with filters := ts.filters ++ [f] }
  | none => ts

/-- Step 0 of `executeHandlers`: the filter loop.  Returns the trace of
filter evaluations and whether every filter passed; the loop returns at
the first filter that yields `false`, so later filters are never
evaluated. -/
def evalFilters : List Filter → Error → List Event × Bool
  | [], _ => ([], true)
  | f :: rest, e =>
      if f.2 e then
        let r := evalFilters rest e
        (Event.filterEval f.1 true :: r.1, r.2)
      else
        ([Event.filterEval f.1 false], false)

/-- Result of `executeHandlers`: the invocation trace plus the Go
function's `(handled, filtered)` return values. -/
structure HandlerResult where
  events : List Event
  handled : Bool
  filtered : Bool
deriving Repr

/-- `(*Try).executeHandlers`: filters first (a `false` suppresses all
handlers), then the specific handler for `err.Index`, then every group
handler for `err.Index` in registration order, then the fallback
handler when no specific handler ran, then the global handler.
`handled` is true iff at least one handler was invoked. -/
def executeHandlers (ts : Try) (err : Error) : HandlerResult :=
  let fr := evalFilters ts.filters err
  if fr.2 = false then
    { events := fr.1, handled := false, filtered := true }
  else
    let specEvents : List Event :=
      match mapGet ts.specificHandlers err.index with
      | some h => [Event.handlerRun h err]
      | none => []
    let hasSpecificHandler := (mapGet ts.specificHandlers err.index).isSome
    let groupEvents : List Event :=
      ((mapGet ts.groupHandlers err.index).getD []).map
        (fun h => Event.handlerRun h err)
    let fallbackEvents : List Event :=
      match ts.fallbackHandler with
      | some fb => if hasSpecificHandler then [] else [Event.handlerRun fb err]
      | none => []
    let globalEvents : List Event :=
      match ts.globalHandler with
      | some g => [Event.handlerRun g err]
      | none => []
    { events := fr.1 ++ specEvents ++ groupEvents ++ fallbackEvents ++ globalEvents
      handled := !specEvents.isEmpty || !groupEvents.isEmpty ||
                 !fallbackEvents.isEmpty || !globalEvents.isEmpty
      filtered := false }

/-- `(*Try).normalizeError`: a `throw.Error` payload is used as-is; any
other payload is wrapped as a fallback-code error carrying the freshly
captured stack (`stack`), the `fmt.Sprintf("unexpected panic: %v
(type: %T)", ...)` message, and an allocated empty context map. -/
def normalizeError (stack : String) : Payload → Error
  | Payload.err e => e
  | Payload.pass =>
      { index := FallbackErrorIndex
        message := "unexpected panic: \x7b\x7d (type: throw.Pass)"
        stack := stack
        context := some [] }
  | Payload.other v =>
      { index := FallbackErrorIndex
        message := "unexpected panic: " ++ v.display ++ " (type: " ++
                   v.typeName ++ ")"
        stack := stack
        context := some [] }

/-- How the engine's execution call ends: a normal return, or a
propagated `panic` carrying an `Error`. -/
inductive Outcome where
  | normal : Outcome
  | raised : Error → Outcome
deriving DecidableEq, Repr

/-- Observable result of `(*Try).Finally`. -/
structure RunResult where
  events : List Event
  outcome : Outcome
deriving Repr

/-- The finalizer's contribution to the trace: the `defer` body runs
`finally()` only when the argument is non-nil. -/
def finallyEvents : Option Nat → List Event
  | some f => [Event.finallyRun f]
  | none => []

/-- `(*Try).Finally(finally)`: runs the protected block; on a panic,
swallows `throw.Pass{}` silently, otherwise normalizes and dispatches,
re-panicking with the normalized error when it was neither handled nor
filtered.  The finalizer `defer` was registered first, so it runs last
on every path, including the re-panic path. -/
def Try.Finally (ts : Try) (stack : String) (finally_ : Option Nat) : RunResult :=
  match ts.tryFunc with
  | none => { events := finallyEvents finally_, outcome := Outcome.normal }
  | some p =>
      if p = Payload.pass then
        { events := finallyEvents finally_, outcome := Outcome.normal }
      else
        let err := normalizeError stack p
        let hr := executeHandlers ts err
        if hr.handled = false ∧ hr.filtered = false then
          { events := hr.events ++ finallyEvents finally_
            outcome := Outcome.raised err }
        else
          { events := hr.events ++ finallyEvents finally_
            outcome := Outcome.normal }

/-- `(*Try).Do`: `Finally` with a nil finalizer. -/
def Try.Do (ts : Try) (stack : String) : RunResult :=
  ts.Finally stack none

/-- One call in a builder chain: the five registration methods. -/
inductive RegOp where
  | regIndex : Int → Option Nat → RegOp
  | regCatch : Option Nat → RegOp
  | regUnknown : Option Nat → RegOp
  | regGroup : List Int → Option Nat → RegOp
  | regFilter : Option Filter → RegOp

/-- Apply one registration call to the engine. -/
def applyReg (ts : Try) : RegOp → Try
  | RegOp.regIndex i h => ts.Index i h
  | RegOp.regCatch h => ts.Catch h
  | RegOp.regUnknown h => ts.Unknown h
  | RegOp.regGroup g h => ts.Group g h
  | RegOp.regFilter f => ts.Filter f

/-- Apply a whole builder chain, left to right. -/
def applyRegs (ts : Try) (ops : List RegOp) : Try :=
  ops.foldl applyReg ts

/-- The group-handler sequence registered for a code (Go reads the
map with an empty-sequence default). -/
def mapGetD (m : List (Int × List Nat)) (k : Int) : List Nat :=
  (mapGet m k).getD []

/-- Neither registry has an entry for a reserved code. -/
def reservedFree (ts : Try) : Prop :=
  mapGet ts.specificHandlers 0 = none ∧
  mapGet ts.specificHandlers FallbackErrorIndex = none ∧
  mapGet ts.groupHandlers 0 = none ∧
  mapGet ts.groupHandlers FallbackErrorIndex = none

namespace Refs

/-- The heap of live Go context maps; a map reference is an index. -/
abbrev Heap := List Ctx

/-- `throw.Error` with the `Context` map *reference* explicit: the
struct is copied by value, but `context` names a map on the heap, as in
Go.  `none` is a `nil` map. -/
structure Error where
  index : Int
  message : String
  stack : String
  context : Option Nat
deriving DecidableEq, Repr

/-- `throw.Error.GetContext` read through the heap. -/
def Error.GetContext (heap : Heap) (e : Error) (key : String) :
    Option Val × Bool :=
  match e.context with
  | none => (none, false)
  | some r =>
      match ctxLookup (heap.getD r []) key with
      | some v => (some v, true)
      | none => (none, false)

/-- `throw.Error.WithContext(key, value)`: the receiver is a value
copy; when its map is nil a fresh map is allocated (on the copy only),
then `e.Context[key] = value` writes into the map the reference names
— a *shared* map when it was already allocated.  Returns the updated
heap and the returned copy. -/
def Error.WithContext (heap : Heap) (e : Error) (key : String) (value : Val) :
    Heap × Error :=
  match e.context with
  | none =>
      (heap ++ [[(key, value)]], { e with context := some heap.length })
  | some r =>
      (heap.set r ((key, value) :: heap.getD r []), e)

end Refs

/-- Modelled from the spec: §4.2 resolution steps (b)-(e) read as an
invocation *order* — the specific handler for `e.code` first, then the
group handlers for `e.code` in registration order, then the fallback
handler iff no specific handler ran, then the global handler last.
Stated from the spec's words, to be compared with `executeHandlers`. -/
def resolutionOrderSpec (ts : Try) (e : Error) : List Event :=
  (match mapGet ts.specificHandlers e.index with
   | some h => [Event.handlerRun h e]
   | none => []) ++
  ((mapGet ts.groupHandlers e.index).getD []).map
    (fun h => Event.handlerRun h e) ++
  (if (mapGet ts.specificHandlers e.index).isNone then
     match ts.fallbackHandler with
     | some fb => [Event.handlerRun fb e]
     | none => []
   else []) ++
  (match ts.globalHandler with
   | some g => [Event.handlerRun g e]
   | none => [])

/-! Concrete sample data used to instantiate the theorems below. -/

/-- A filter passing every error with code at least 400. -/
def wfilterGe400 : Filter := (9, fun e => decide (400 ≤ e.index))

/-- A filter passing every error with code below 500. -/
def wfilterLt500 : Filter := (10, fun e => decide (e.index < 500))

/-- A sample classified error with code 404. -/
def werr404 : Error :=
  { index := 404, message := "not found", stack := "s0", context := none }

/-- A sample classified error with code 500. -/
def werr500 : Error :=
  { index := 500, message := "server error", stack := "s0", context := none }

/-- Sample engine: specific, group, fallback, global handlers and one
passing filter, protecting a block that raises `werr404`. -/
def wtry1 : Try :=
  ((((((Run (some (Payload.err werr404))).Index 404 (some 1)).Group
    [400, 401, 403, 404] (some 2)).Group [404] (some 3)).Unknown
    (some 4)).Catch (some 5)).Filter (some wfilterGe400)

/-- Sample engine: raises `werr500`; the second filter rejects it. -/
def wtry2 : Try :=
  (((((Run (some (Payload.err werr500))).Filter
    (some wfilterGe400)).Filter (some wfilterLt500)).Index 500
    (some 1)).Unknown (some 4)).Catch (some 5)

/-- Sample engine: raises `werr500` but only registers a handler for
404, so nothing claims the error. -/
def wtry3 : Try :=
  (Run (some (Payload.err werr500))).Index 404 (some 1)

/-- Sample outer engine for nesting: its protected block is the raise
re-propagated by `wtry3`. -/
def wtry3outer : Try :=
  Run (some (Payload.err werr500))

/-- Sample engine whose block raises the pass-through marker. -/
def wtry6 : Try :=
  ((Run (some Payload.pass)).Index 404 (some 1)).Catch (some 5)

/-- Sample engine with fallback and global handlers, protecting a
block that panics with the raw (unclassified) value `"boom"`. -/
def wtry7 : Try :=
  (((Run (some (Payload.other (Val.vstr "boom")))).Index 404
    (some 1)).Unknown (some 4)).Catch (some 5)

theorem evalFilters_all_true (e : Error) :
    ∀ fs : List Filter, (∀ g ∈ fs, g.2 e = true) →
      evalFilters fs e = (fs.map (fun g => Event.filterEval g.1 true), true) := by
  intro fs
  induction fs with
  | nil => intro _; rfl
  | cons f rest ih =>
      intro hall
      have hf : f.2 e = true := hall f (List.mem_cons_self f rest)
      have hrest := ih (fun g hg => hall g (List.mem_cons_of_mem f hg))
      simp [evalFilters, hf, hrest]

theorem evalFilters_first_false (e : Error) (l₁ : List Filter) (f : Filter)
    (l₂ : List Filter) (h₁ : ∀ g ∈ l₁, g.2 e = true) (hf : f.2 e = false) :
    evalFilters (l₁ ++ f :: l₂) e =
      (l₁.map (fun g => Event.filterEval g.1 true) ++
        [Event.filterEval f.1 false], false) := by
  induction l₁ with
  | nil => simp [evalFilters, hf]
  | cons g rest ih =>
      have hg : g.2 e = true := h₁ g (List.mem_cons_self g rest)
      have hrest := ih (fun g' hg' => h₁ g' (List.mem_cons_of_mem g hg'))
      simp [evalFilters, hg, hrest]

theorem evalFilters_events_shape (e : Error) :
    ∀ fs : List Filter, ∀ ev ∈ (evalFilters fs e).1,
      ∃ i b, ev = Event.filterEval i b := by
  intro fs
  induction fs with
  | nil => intro ev hev; simp [evalFilters] at hev
  | cons f rest ih =>
      intro ev hev
      cases hf : f.2 e with
      | true =>
          simp [evalFilters, hf] at hev
          rcases hev with hev | hev
          · exact ⟨f.1, true, hev⟩
          · exact ih ev hev
      | false =>
          simp [evalFilters, hf] at hev
          exact ⟨f.1, false, hev⟩

theorem list_isEmpty_append {α : Type} (l₁ l₂ : List α) :
    (l₁ ++ l₂).isEmpty = (l₁.isEmpty && l₂.isEmpty) := by
  cases l₁ <;> simp [List.isEmpty]

theorem list_isEmpty_map {α β : Type} (f : α → β) (l : List α) :
    (l.map f).isEmpty = l.isEmpty := by
  cases l <;> simp [List.isEmpty]

theorem executeHandlers_of_filtered (ts : Try) (e : Error)
    (hf : (evalFilters ts.filters e).2 = false) :
    executeHandlers ts e =
      { events := (evalFilters ts.filters e).1
        handled := false
        filtered := true } := by
  simp [executeHandlers, hf]

theorem executeHandlers_of_pass (ts : Try) (e : Error)
    (hf : (evalFilters ts.filters e).2 = true) :
    executeHandlers ts e =
      { events := (evalFilters ts.filters e).1 ++ resolutionOrderSpec ts e
        handled := !(resolutionOrderSpec ts e).isEmpty
        filtered := false } := by
  simp only [executeHandlers, resolutionOrderSpec, hf]
  cases hs : mapGet ts.specificHandlers e.index <;>
  cases hfb : ts.fallbackHandler <;>
  cases hg : ts.globalHandler <;>
  simp [List.append_assoc, list_isEmpty_append, list_isEmpty_map,
    Bool.or_comm, Bool.or_assoc, Bool.or_left_comm]

theorem resolutionOrderSpec_shape (ts : Try) (e : Error) :
    ∀ ev ∈ resolutionOrderSpec ts e, ∃ h, ev = Event.handlerRun h e := by
  intro ev hev
  simp only [resolutionOrderSpec, List.mem_append] at hev
  rcases hev with ((hev | hev) | hev) | hev
  · rcases hs : mapGet ts.specificHandlers e.index with _ | h <;> rw [hs] at hev
    · simp at hev
    · simp at hev; exact ⟨h, hev⟩
  · rcases List.mem_map.mp hev with ⟨h, _, rfl⟩
    exact ⟨h, rfl⟩
  · by_cases hs : (mapGet ts.specificHandlers e.index).isNone
    · rw [if_pos hs] at hev
      rcases hfb : ts.fallbackHandler with _ | fb <;> rw [hfb] at hev
      · simp at hev
      · simp at hev; exact ⟨fb, hev⟩
    · rw [if_neg hs] at hev; simp at hev
  · rcases hg : ts.globalHandler with _ | g <;> rw [hg] at hev
    · simp at hev
    · simp at hev; exact ⟨g, hev⟩

theorem evalFilters_pass_of_all (e : Error) (fs : List Filter)
    (h : ∀ g ∈ fs, g.2 e = true) : (evalFilters fs e).2 = true := by
  rw [evalFilters_all_true e fs h]

theorem evalFilters_false_of_mem (e : Error) :
    ∀ (fs : List Filter) (g : Filter), g ∈ fs → g.2 e = false →
      (evalFilters fs e).2 = false := by
  intro fs
  induction fs with
  | nil => intro g hg _; exact absurd hg (List.not_mem_nil g)
  | cons f rest ih =>
      intro g hg hfalse
      cases hf : f.2 e with
      | false => simp [evalFilters, hf]
      | true =>
          rcases List.mem_cons.mp hg with rfl | hg'
          · rw [hf] at hfalse; exact Bool.noConfusion hfalse
          · simp only [evalFilters, hf, if_true]
            exact ih g hg' hfalse

theorem executeHandlers_events_of_pass (ts : Try) (e : Error)
    (hf : (evalFilters ts.filters e).2 = true) :
    (executeHandlers ts e).events =
      (evalFilters ts.filters e).1 ++ resolutionOrderSpec ts e := by
  rw [executeHandlers_of_pass ts e hf]

theorem executeHandlers_handled_of_pass (ts : Try) (e : Error)
    (hf : (evalFilters ts.filters e).2 = true) :
    (executeHandlers ts e).handled = !(resolutionOrderSpec ts e).isEmpty := by
  rw [executeHandlers_of_pass ts e hf]

theorem executeHandlers_filtered_of_pass (ts : Try) (e : Error)
    (hf : (evalFilters ts.filters e).2 = true) :
    (executeHandlers ts e).filtered = false := by
  rw [executeHandlers_of_pass ts e hf]

theorem executeHandlers_events_of_filtered (ts : Try) (e : Error)
    (hf : (evalFilters ts.filters e).2 = false) :
    (executeHandlers ts e).events = (evalFilters ts.filters e).1 := by
  rw [executeHandlers_of_filtered ts e hf]

theorem executeHandlers_flags_of_filtered (ts : Try) (e : Error)
    (hf : (evalFilters ts.filters e).2 = false) :
    (executeHandlers ts e).handled = false ∧
      (executeHandlers ts e).filtered = true := by
  rw [executeHandlers_of_filtered ts e hf]; exact ⟨rfl, rfl⟩

theorem executeHandlers_handled_false_of_no_run (ts : Try) (e : Error)
    (hf : (evalFilters ts.filters e).2 = true)
    (hno : ∀ h e', Event.handlerRun h e' ∉ (executeHandlers ts e).events) :
    (executeHandlers ts e).handled = false := by
  have hros : resolutionOrderSpec ts e = [] := by
    apply List.eq_nil_iff_forall_not_mem.mpr
    intro ev hev
    rcases resolutionOrderSpec_shape ts e ev hev with ⟨h, rfl⟩
    refine hno h e ?_
    rw [executeHandlers_events_of_pass ts e hf]
    exact List.mem_append_right _ hev
  rw [executeHandlers_handled_of_pass ts e hf, hros]
  rfl

theorem finallyEvents_shape (fin : Option Nat) :
    ∀ ev ∈ finallyEvents fin, ∃ n, ev = Event.finallyRun n := by
  intro ev hev
  cases fin with
  | none => simp [finallyEvents] at hev
  | some f => simp [finallyEvents] at hev; exact ⟨f, hev⟩

theorem executeHandlers_no_finallyRun (ts : Try) (e : Error) :
    ∀ ev ∈ (executeHandlers ts e).events, ∀ n, ev ≠ Event.finallyRun n := by
  intro ev hev n
  cases hp : (evalFilters ts.filters e).2 with
  | false =>
      rw [executeHandlers_events_of_filtered ts e hp] at hev
      rcases evalFilters_events_shape e ts.filters ev hev with ⟨i, b, rfl⟩
      simp
  | true =>
      rw [executeHandlers_events_of_pass ts e hp] at hev
      rcases List.mem_append.mp hev with hev | hev
      · rcases evalFilters_events_shape e ts.filters ev hev with ⟨i, b, rfl⟩
        simp
      · rcases resolutionOrderSpec_shape ts e ev hev with ⟨h, rfl⟩
        simp

theorem finally_eq_of_panic (ts : Try) (stack : String) (fin : Option Nat)
    (p : Payload) (h1 : ts.tryFunc = some p) (h2 : p ≠ Payload.pass) :
    ts.Finally stack fin =
      if (executeHandlers ts (normalizeError stack p)).handled = false ∧
         (executeHandlers ts (normalizeError stack p)).filtered = false then
        { events := (executeHandlers ts (normalizeError stack p)).events ++
            finallyEvents fin
          outcome := Outcome.raised (normalizeError stack p) }
      else
        { events := (executeHandlers ts (normalizeError stack p)).events ++
            finallyEvents fin
          outcome := Outcome.normal } := by
  simp [Try.Finally, h1, h2]

theorem finally_raises_of_unclaimed (ts : Try) (stack : String)
    (fin : Option Nat) (p : Payload) (h1 : ts.tryFunc = some p)
    (h2 : p ≠ Payload.pass)
    (h3 : (evalFilters ts.filters (normalizeError stack p)).2 = true)
    (h4 : ∀ h e', Event.handlerRun h e' ∉
      (executeHandlers ts (normalizeError stack p)).events) :
    (ts.Finally stack fin).outcome = Outcome.raised (normalizeError stack p) := by
  have hh := executeHandlers_handled_false_of_no_run ts (normalizeError stack p) h3 h4
  have hfl := executeHandlers_filtered_of_pass ts (normalizeError stack p) h3
  rw [finally_eq_of_panic ts stack fin p h1 h2, if_pos ⟨hh, hfl⟩]

/-- C1: for every engine and every raised error that no filter
rejects, handler resolution proceeds in this exact order: the specific
handler registered for the error's code first (if any), then every
group handler registered for that code in registration order
(regardless of whether a specific handler ran), then the fallback
handler iff no specific handler ran and one is registered, then the
global handler, if registered, unconditionally and last — that is,
`executeHandlers` emits the filter-evaluation trace followed exactly
by `resolutionOrderSpec`, the invocation order stated by the spec. -/
theorem C1_resolution_order (ts : Try) (e : Error)
    (hf : ∀ g ∈ ts.filters, g.2 e = true) :
    (executeHandlers ts e).events =
      (evalFilters ts.filters e).1 ++ resolutionOrderSpec ts e :=
  executeHandlers_events_of_pass ts e
    (evalFilters_pass_of_all e ts.filters hf)

theorem C1_resolution_order_witness :
    (∀ g ∈ wtry1.filters, g.2 werr404 = true) ∧
    (executeHandlers wtry1 werr404).events =
      (evalFilters wtry1.filters werr404).1 ++
        resolutionOrderSpec wtry1 werr404 := by
  have hall : ∀ g ∈ wtry1.filters, g.2 werr404 = true := by
    intro g hg
    rw [show wtry1.filters = [wfilterGe400] from rfl,
      List.mem_singleton] at hg
    subst hg; rfl
  exact ⟨hall, C1_resolution_order wtry1 werr404 hall⟩

/-- C2: if any registered filter returns false for the normalized
error, no handler of any kind executes and the error is not re-raised:
`Finally` returns normally and the error is discarded. -/
theorem C2_filter_suppresses_dispatch (ts : Try) (stack : String)
    (fin : Option Nat) (p : Payload) (g : Filter)
    (h1 : ts.tryFunc = some p) (h2 : p ≠ Payload.pass)
    (hg : g ∈ ts.filters)
    (hgf : g.2 (normalizeError stack p) = false) :
    (ts.Finally stack fin).outcome = Outcome.normal ∧
    ∀ h e, Event.handlerRun h e ∉ (ts.Finally stack fin).events := by
  have h3 : (evalFilters ts.filters (normalizeError stack p)).2 = false :=
    evalFilters_false_of_mem (normalizeError stack p) ts.filters g hg hgf
  have hflags := executeHandlers_flags_of_filtered ts (normalizeError stack p) h3
  have hev := executeHandlers_events_of_filtered ts (normalizeError stack p) h3
  have hfe := finally_eq_of_panic ts stack fin p h1 h2
  have hcond : ¬((executeHandlers ts (normalizeError stack p)).handled = false ∧
      (executeHandlers ts (normalizeError stack p)).filtered = false) := by
    rintro ⟨_, hc⟩
    rw [hflags.2] at hc
    exact Bool.noConfusion hc
  refine ⟨by rw [hfe, if_neg hcond], ?_⟩
  intro h e hmem
  rw [hfe, if_neg hcond] at hmem
  rcases List.mem_append.mp hmem with hmem | hmem
  · rw [hev] at hmem
    rcases evalFilters_events_shape (normalizeError stack p) ts.filters _ hmem with
      ⟨i, b, hq⟩
    exact Event.noConfusion hq
  · rcases finallyEvents_shape fin _ hmem with ⟨n, hq⟩
    exact Event.noConfusion hq

theorem C2_filter_suppresses_dispatch_witness :
    wfilterLt500 ∈ wtry2.filters ∧
    wfilterLt500.2 (normalizeError "s1" (Payload.err werr500)) = false ∧
    (wtry2.Finally "s1" none).outcome = Outcome.normal := by
  have hg : wfilterLt500 ∈ wtry2.filters := by
    rw [show wtry2.filters = [wfilterGe400, wfilterLt500] from rfl]
    exact List.mem_cons_of_mem _ (List.mem_singleton.mpr rfl)
  exact ⟨hg, rfl, (C2_filter_suppresses_dispatch wtry2 "s1" none
    (Payload.err werr500) wfilterLt500 rfl (by simp) hg rfl).1⟩

/-- C3: with no filter rejecting and no handler executing, `Finally`
itself re-raises the normalized error — equal in code, message,
context and stack to the normalized original — and an outer engine
whose protected block is that re-raise, when it too leaves the error
unclaimed, re-raises the very same payload untouched. -/
theorem C3_unhandled_reraised (ts : Try) (stack : String) (fin : Option Nat)
    (p : Payload) (h1 : ts.tryFunc = some p) (h2 : p ≠ Payload.pass)
    (h3 : ∀ g ∈ ts.filters, g.2 (normalizeError stack p) = true)
    (h4 : ∀ h e', Event.handlerRun h e' ∉
      (executeHandlers ts (normalizeError stack p)).events) :
    (ts.Finally stack fin).outcome = Outcome.raised (normalizeError stack p) ∧
    ∀ (ts' : Try) (stack' : String) (fin' : Option Nat),
      ts'.tryFunc = some (Payload.err (normalizeError stack p)) →
      (∀ g ∈ ts'.filters, g.2 (normalizeError stack p) = true) →
      (∀ h e', Event.handlerRun h e' ∉
        (executeHandlers ts' (normalizeError stack p)).events) →
      (ts'.Finally stack' fin').outcome =
        Outcome.raised (normalizeError stack p) := by
  refine ⟨finally_raises_of_unclaimed ts stack fin p h1 h2
    (evalFilters_pass_of_all _ _ h3) h4, ?_⟩
  intro ts' stack' fin' h1' h3' h4'
  exact finally_raises_of_unclaimed ts' stack' fin'
    (Payload.err (normalizeError stack p)) h1'
    (fun hcon => Payload.noConfusion hcon)
    (evalFilters_pass_of_all _ _ h3') h4'

theorem C3_unhandled_reraised_witness :
    (wtry3.Finally "s1" none).outcome = Outcome.raised werr500 ∧
    (wtry3outer.Finally "s2" none).outcome = Outcome.raised werr500 := by
  have hmain := C3_unhandled_reraised wtry3 "s1" none (Payload.err werr500)
    rfl (by simp)
    (by
      intro g hg
      rw [show wtry3.filters = [] from rfl] at hg
      exact absurd hg (List.not_mem_nil g))
    (by
      intro h e'
      rw [show (executeHandlers wtry3
        (normalizeError "s1" (Payload.err werr500))).events = [] from rfl]
      exact List.not_mem_nil _)
  exact ⟨hmain.1, hmain.2 wtry3outer "s2" none rfl
    (by
      intro g hg
      rw [show wtry3outer.filters = [] from rfl] at hg
      exact absurd hg (List.not_mem_nil g))
    (by
      intro h e'
      rw [show (executeHandlers wtry3outer
        (normalizeError "s1" (Payload.err werr500))).events = [] from rfl]
      exact List.not_mem_nil _)⟩

/-- C5: the finalizer passed to `Finally` runs exactly once per
execution, as the last step before control returns, on every code
path (the engine is universally quantified, so this covers normal
return, handled, filtered, pass-through and re-propagated runs): the
trace ends with its event and contains no other finalizer event. -/
theorem C5_finalizer_exactly_once_last (ts : Try) (stack : String) (f : Nat) :
    ∃ pre, (ts.Finally stack (some f)).events = pre ++ [Event.finallyRun f] ∧
      ∀ ev ∈ pre, ∀ n, ev ≠ Event.finallyRun n := by
  cases htf : ts.tryFunc with
  | none =>
      refine ⟨[], ?_, by intro ev hev; simp at hev⟩
      simp [Try.Finally, htf, finallyEvents]
  | some p =>
      by_cases hp : p = Payload.pass
      · refine ⟨[], ?_, by intro ev hev; simp at hev⟩
        simp [Try.Finally, htf, hp, finallyEvents]
      · have hfe := finally_eq_of_panic ts stack (some f) p htf hp
        refine ⟨(executeHandlers ts (normalizeError stack p)).events, ?_,
          executeHandlers_no_finallyRun ts (normalizeError stack p)⟩
        rw [hfe]
        by_cases hc : (executeHandlers ts (normalizeError stack p)).handled
            = false ∧
            (executeHandlers ts (normalizeError stack p)).filtered = false
        · rw [if_pos hc]; rfl
        · rw [if_neg hc]; rfl

theorem C5_finalizer_exactly_once_last_witness :
    ∃ pre, (wtry1.Finally "s9" (some 7)).events =
        pre ++ [Event.finallyRun 7] ∧
      ∀ ev ∈ pre, ∀ n, ev ≠ Event.finallyRun n :=
  C5_finalizer_exactly_once_last wtry1 "s9" 7

/-- C6: raising the reserved pass-through marker makes `Finally`
complete normally, with no handler invoked, no filter evaluated and
nothing re-raised — only the finalizer event remains. -/
theorem C6_pass_marker_swallowed (ts : Try) (stack : String)
    (fin : Option Nat) (h : ts.tryFunc = some Payload.pass) :
    (ts.Finally stack fin).outcome = Outcome.normal ∧
    (ts.Finally stack fin).events = finallyEvents fin ∧
    ∀ hd e, Event.handlerRun hd e ∉ (ts.Finally stack fin).events := by
  have heq : ts.Finally stack fin =
      { events := finallyEvents fin, outcome := Outcome.normal } := by
    simp [Try.Finally, h]
  refine ⟨by rw [heq], by rw [heq], ?_⟩
  intro hd e hmem
  rw [heq] at hmem
  rcases finallyEvents_shape fin _ hmem with ⟨n, hq⟩
  exact Event.noConfusion hq

theorem C6_pass_marker_swallowed_witness :
    wtry6.tryFunc = some Payload.pass ∧
    (wtry6.Finally "s3" (some 7)).outcome = Outcome.normal ∧
    (wtry6.Finally "s3" (some 7)).events = finallyEvents (some 7) :=
  ⟨rfl, (C6_pass_marker_swallowed wtry6 "s3" (some 7) rfl).1,
    (C6_pass_marker_swallowed wtry6 "s3" (some 7) rfl).2.1⟩

theorem mapGet_mapSet {β : Type} (m : List (Int × β)) (k : Int) (v : β)
    (i : Int) :
    mapGet (mapSet m k v) i = if i = k then some v else mapGet m i := by
  induction m with
  | nil =>
      by_cases h : i = k
      · subst h; simp [mapSet, mapGet]
      · simp [mapSet, mapGet, h, show ¬(k = i) from fun hh => h hh.symm]
  | cons p rest ih =>
      by_cases hpk : p.1 = k
      · by_cases h : i = k
        · subst h; simp [mapSet, mapGet, hpk]
        · have hpi : ¬(p.1 = i) := by
            rw [hpk]; exact fun hh => h hh.symm
          simp [mapSet, mapGet, hpk, h, hpi,
            show ¬(k = i) from fun hh => h hh.symm]
      · by_cases h : i = k
        · subst h
          simp [mapSet, mapGet, hpk, ih,
            show ¬(p.1 = i) from fun hh => hpk hh]
        · simp [mapSet, mapGet, hpk, h, ih]

theorem mapGetD_mapAppend (m : List (Int × List Nat)) (k : Int) (h : Nat)
    (i : Int) :
    mapGetD (mapAppend m k h) i =
      if i = k then mapGetD m i ++ [h] else mapGetD m i := by
  by_cases hik : i = k
  · subst hik; simp [mapGetD, mapAppend, mapGet_mapSet]
  · simp [mapGetD, mapAppend, mapGet_mapSet, hik]

theorem mapGet_mapAppend_ne (m : List (Int × List Nat)) (k : Int) (h : Nat)
    (i : Int) (hne : i ≠ k) : mapGet (mapAppend m k h) i = mapGet m i := by
  simp [mapAppend, mapGet_mapSet, hne]

theorem groupFold_getD (h : Nat) :
    ∀ (codes : List Int) (ts : Try) (i : Int),
      mapGetD (codes.foldl (groupStep h) ts).groupHandlers i =
        mapGetD ts.groupHandlers i ++
          (if i = 0 ∨ i = FallbackErrorIndex then []
           else List.replicate (codes.count i) h) := by
  intro codes
  induction codes with
  | nil =>
      intro ts i
      by_cases hres : i = 0 ∨ i = FallbackErrorIndex <;> simp [hres]
  | cons c rest ih =>
      intro ts i
      rw [List.foldl_cons, ih]
      by_cases hcres : c ≠ 0 ∧ c ≠ FallbackErrorIndex
      · have hstep : (groupStep h ts c).groupHandlers =
            mapAppend ts.groupHandlers c h := by
          simp [groupStep, hcres]
        rw [hstep, mapGetD_mapAppend]
        by_cases hic : i = c
        · subst hic
          have hres : ¬(i = 0 ∨ i = FallbackErrorIndex) := by
            rintro (h0 | hF)
            · exact hcres.1 h0
            · exact hcres.2 hF
          simp [if_neg hres, List.count_cons_self, List.replicate_succ,
            List.append_assoc]
        · rw [if_neg hic, List.count_cons_of_ne hic]
      · have hstep : groupStep h ts c = ts := by
          simp only [groupStep, if_neg hcres]
        rw [hstep]
        by_cases hres : i = 0 ∨ i = FallbackErrorIndex
        · simp [hres]
        · have hic : i ≠ c := by
            rcases not_and_or.mp hcres with h0 | hF
            · intro hh; exact hres (Or.inl (hh.trans (not_not.mp h0)))
            · intro hh; exact hres (Or.inr (hh.trans (not_not.mp hF)))
          rw [List.count_cons_of_ne hic]

theorem reservedFree_groupStep (h : Nat) (ts : Try) (c : Int)
    (hrf : reservedFree ts) : reservedFree (groupStep h ts c) := by
  by_cases hcres : c ≠ 0 ∧ c ≠ FallbackErrorIndex
  · have hsp : (groupStep h ts c).specificHandlers = ts.specificHandlers := by
      simp [groupStep, hcres]
    have hgp : (groupStep h ts c).groupHandlers =
        mapAppend ts.groupHandlers c h := by
      simp [groupStep, hcres]
    refine ⟨?_, ?_, ?_, ?_⟩
    · rw [hsp]; exact hrf.1
    · rw [hsp]; exact hrf.2.1
    · rw [hgp, mapGet_mapAppend_ne _ _ _ _ (fun hh => hcres.1 hh.symm)]
      exact hrf.2.2.1
    · rw [hgp, mapGet_mapAppend_ne _ _ _ _ (fun hh => hcres.2 hh.symm)]
      exact hrf.2.2.2
  · have hstep : groupStep h ts c = ts := by
      simp only [groupStep, if_neg hcres]
    rw [hstep]; exact hrf

theorem reservedFree_foldl (h : Nat) :
    ∀ (codes : List Int) (ts : Try), reservedFree ts →
      reservedFree (codes.foldl (groupStep h) ts) := by
  intro codes
  induction codes with
  | nil => intro ts hrf; exact hrf
  | cons c rest ih =>
      intro ts hrf
      rw [List.foldl_cons]
      exact ih _ (reservedFree_groupStep h ts c hrf)

theorem reservedFree_applyReg (ts : Try) (op : RegOp)
    (hrf : reservedFree ts) : reservedFree (applyReg ts op) := by
  cases op with
  | regIndex i h =>
      cases h with
      | none => exact hrf
      | some h' =>
          by_cases hcond : i ≠ 0 ∧ i ≠ FallbackErrorIndex
          · have hsp : (ts.Index i (some h')).specificHandlers =
                mapSet ts.specificHandlers i h' := by
              simp [Try.Index, hcond]
            have hgp : (ts.Index i (some h')).groupHandlers =
                ts.groupHandlers := by
              simp [Try.Index, hcond]
            refine ⟨?_, ?_, ?_, ?_⟩
            · rw [show applyReg ts (RegOp.regIndex i (some h')) =
                ts.Index i (some h') from rfl, hsp, mapGet_mapSet,
                if_neg (show ¬((0 : Int) = i) from fun hh => hcond.1 hh.symm)]
              exact hrf.1
            · rw [show applyReg ts (RegOp.regIndex i (some h')) =
                ts.Index i (some h') from rfl, hsp, mapGet_mapSet,
                if_neg (fun hh => hcond.2 hh.symm)]
              exact hrf.2.1
            · rw [show applyReg ts (RegOp.regIndex i (some h')) =
                ts.Index i (some h') from rfl, hgp]
              exact hrf.2.2.1
            · rw [show applyReg ts (RegOp.regIndex i (some h')) =
                ts.Index i (some h') from rfl, hgp]
              exact hrf.2.2.2
          · have : ts.Index i (some h') = ts := by
              simp only [Try.Index, if_neg hcond]
            rw [show applyReg ts (RegOp.regIndex i (some h')) =
              ts.Index i (some h') from rfl, this]
            exact hrf
  | regCatch h => cases h with
      | none => exact hrf
      | some h' => exact hrf
  | regUnknown h => cases h with
      | none => exact hrf
      | some h' => exact hrf
  | regFilter f => cases f with
      | none => exact hrf
      | some f' => exact hrf
  | regGroup g h =>
      cases h with
      | none => exact hrf
      | some h' =>
          by_cases hlen : g.length > 0
          · have : applyReg ts (RegOp.regGroup g (some h')) =
                g.foldl (groupStep h') ts := by
              simp [applyReg, Try.Group, hlen]
            rw [this]
            exact reservedFree_foldl h' g ts hrf
          · have : applyReg ts (RegOp.regGroup g (some h')) = ts := by
              simp [applyReg, Try.Group, hlen]
            rw [this]
            exact hrf

theorem reservedFree_applyRegs :
    ∀ (ops : List RegOp) (ts : Try), reservedFree ts →
      reservedFree (applyRegs ts ops) := by
  intro ops
  induction ops with
  | nil => intro ts hrf; exact hrf
  | cons op rest ih =>
      intro ts hrf
      exact ih _ (reservedFree_applyReg ts op hrf)

/-- C8: under every sequence of registration calls starting from a
fresh engine, the specific-handler map and the group-handler map never
hold an entry for code `0` or `FallbackErrorIndex`; `Index` on a
reserved code or with a nil handler leaves the engine unchanged; and
`Group` skips exactly the reserved codes — every other code receives
one appended copy of the handler per occurrence in the code list —
while a nil handler or an empty code list is a no-op. -/
theorem C8_reserved_registration (f : Option Payload) :
    (∀ ops : List RegOp, reservedFree (applyRegs (Run f) ops)) ∧
    (∀ (ts : Try) (h : Option Nat) (i : Int),
      ts.Index 0 h = ts ∧ ts.Index FallbackErrorIndex h = ts ∧
      ts.Index i none = ts) ∧
    (∀ (ts : Try) (codes : List Int) (h : Nat) (i : Int),
      mapGetD (ts.Group codes (some h)).groupHandlers i =
        mapGetD ts.groupHandlers i ++
          (if i = 0 ∨ i = FallbackErrorIndex then []
           else List.replicate (codes.count i) h)) ∧
    (∀ (ts : Try) (codes : List Int) (h : Option Nat),
      ts.Group codes none = ts ∧ ts.Group [] h = ts) := by
  refine ⟨?_, ?_, ?_, ?_⟩
  · intro ops
    exact reservedFree_applyRegs ops (Run f) ⟨rfl, rfl, rfl, rfl⟩
  · intro ts h i
    refine ⟨?_, ?_, ?_⟩
    · cases h with
      | none => rfl
      | some h' => simp [Try.Index]
    · cases h with
      | none => rfl
      | some h' => simp [Try.Index]
    · rfl
  · intro ts codes h i
    cases codes with
    | nil =>
        by_cases hres : i = 0 ∨ i = FallbackErrorIndex <;>
          simp [Try.Group, hres]
    | cons c rest =>
        have hlen : (c :: rest).length > 0 := by simp
        have : ts.Group (c :: rest) (some h) =
            (c :: rest).foldl (groupStep h) ts := by
          simp [Try.Group, hlen]
        rw [this, groupFold_getD]
  · intro ts codes h
    refine ⟨rfl, ?_⟩
    cases h with
    | none => rfl
    | some h' => simp [Try.Group]

theorem C8_reserved_registration_witness :
    reservedFree (applyRegs (Run none)
      [RegOp.regIndex 0 (some 1), RegOp.regIndex FallbackErrorIndex (some 1),
       RegOp.regIndex 404 (some 1),
       RegOp.regGroup [0, FallbackErrorIndex, 7] (some 2)]) :=
  (C8_reserved_registration none).1 _

/-- C7: a raised payload that is not already a classified error is
normalized to a `ClassifiedError` with code `FallbackErrorIndex`, a
message describing the raw payload and its dynamic type, the freshly
captured stack and an empty (allocated) context; an error payload is
used as-is; and the normalized unclassified error is caught by a
registered fallback (`Unknown`) handler and observed by a registered
global (`Catch`) handler. -/
theorem C7_normalize_unclassified (stack : String) (v : Val) (e : Error)
    (ts : Try) (f g : Nat)
    (hs : mapGet ts.specificHandlers FallbackErrorIndex = none)
    (hfb : ts.fallbackHandler = some f) (hg : ts.globalHandler = some g)
    (hfl : ∀ fl ∈ ts.filters,
      fl.2 (normalizeError stack (Payload.other v)) = true) :
    normalizeError stack (Payload.other v) =
      { index := FallbackErrorIndex
        message := "unexpected panic: " ++ v.display ++ " (type: " ++
          v.typeName ++ ")"
        stack := stack
        context := some [] } ∧
    normalizeError stack (Payload.err e) = e ∧
    Event.handlerRun f (normalizeError stack (Payload.other v)) ∈
      (executeHandlers ts (normalizeError stack (Payload.other v))).events ∧
    Event.handlerRun g (normalizeError stack (Payload.other v)) ∈
      (executeHandlers ts (normalizeError stack (Payload.other v))).events := by
  have hs' : mapGet ts.specificHandlers
      (normalizeError stack (Payload.other v)).index = none := hs
  have hfl' := evalFilters_pass_of_all
    (normalizeError stack (Payload.other v)) ts.filters hfl
  refine ⟨rfl, rfl, ?_, ?_⟩
  · rw [executeHandlers_events_of_pass _ _ hfl']
    refine List.mem_append_right _ ?_
    simp [resolutionOrderSpec, hs', hfb, hg]
  · rw [executeHandlers_events_of_pass _ _ hfl']
    refine List.mem_append_right _ ?_
    simp [resolutionOrderSpec, hs', hfb, hg]

theorem C7_normalize_unclassified_witness :
    mapGet wtry7.specificHandlers FallbackErrorIndex = none ∧
    Event.handlerRun 4
        (normalizeError "s4" (Payload.other (Val.vstr "boom"))) ∈
      (executeHandlers wtry7
        (normalizeError "s4" (Payload.other (Val.vstr "boom")))).events ∧
    Event.handlerRun 5
        (normalizeError "s4" (Payload.other (Val.vstr "boom"))) ∈
      (executeHandlers wtry7
        (normalizeError "s4" (Payload.other (Val.vstr "boom")))).events := by
  have h := C7_normalize_unclassified "s4" (Val.vstr "boom") werr404 wtry7
    4 5 rfl rfl rfl
    (by
      intro fl hfl
      rw [show wtry7.filters = [] from rfl] at hfl
      exact absurd hfl (List.not_mem_nil fl))
  exact ⟨rfl, h.2.2.1, h.2.2.2⟩

/-- C9: filters are evaluated left-to-right in registration order:
every filter before the first one returning false is evaluated (its
evaluation appears in the trace), the first false filter is evaluated,
and no filter after it is evaluated; when no filter returns false,
every filter is evaluated in order. -/
theorem C9_filters_in_order (ts : Try) (e : Error) :
    (∀ (l₁ : List Filter) (f : Filter) (l₂ : List Filter),
      ts.filters = l₁ ++ f :: l₂ → (∀ g ∈ l₁, g.2 e = true) →
      f.2 e = false →
      (evalFilters ts.filters e).1 =
        l₁.map (fun g => Event.filterEval g.1 true) ++
          [Event.filterEval f.1 false]) ∧
    ((∀ g ∈ ts.filters, g.2 e = true) →
      (evalFilters ts.filters e).1 =
        ts.filters.map (fun g => Event.filterEval g.1 true)) := by
  refine ⟨?_, ?_⟩
  · intro l₁ f l₂ hsplit h₁ hf
    rw [hsplit, evalFilters_first_false e l₁ f l₂ h₁ hf]
  · intro hall
    rw [evalFilters_all_true e ts.filters hall]

theorem C9_filters_in_order_witness :
    wtry2.filters = [wfilterGe400] ++ wfilterLt500 :: [] ∧
    (evalFilters wtry2.filters werr500).1 =
      [Event.filterEval 9 true, Event.filterEval 10 false] :=
  ⟨rfl, (C9_filters_in_order wtry2 werr500).1 [wfilterGe400] wfilterLt500 []
    rfl (fun g hg => by rw [List.mem_singleton] at hg; subst hg; rfl) rfl⟩

/-- C10: `throw.Err` and `throw.ValueErr` raise iff the error argument
is non-nil; a nil error makes `ValueErr` return its value unchanged;
and a raised payload is a classified error with code
`FallbackErrorIndex` and the argument's message. -/
theorem C10_err_valueerr {α : Type} (stack m : String) (v : α) :
    Err stack none = none ∧
    Err stack (some m) = some
      { index := FallbackErrorIndex, message := m, stack := stack
        context := none } ∧
    ValueErr stack v none = Except.ok v ∧
    ValueErr stack v (some m) = Except.error
      { index := FallbackErrorIndex, message := m, stack := stack
        context := none } :=
  ⟨rfl, rfl, rfl, rfl⟩

theorem C10_err_valueerr_witness :
    Err "s" (some "boom") = some
      { index := FallbackErrorIndex, message := "boom", stack := "s"
        context := none } ∧
    ValueErr "s" (3 : Nat) none = Except.ok 3 :=
  ⟨(C10_err_valueerr "s" "boom" (3 : Nat)).2.1,
   (C10_err_valueerr "s" "boom" (3 : Nat)).2.2.1⟩

theorem getD_concat_length {α : Type} (l : List α) (x : α) (d : α) :
    (l ++ [x]).getD l.length d = x := by
  simp [List.getD, List.getElem?_concat_length]

theorem getD_set_self {α : Type} (l : List α) (i : Nat) (a d : α)
    (h : i < l.length) : (l.set i a).getD i d = a := by
  simp [List.getD, List.getElem?_set_self, h]

theorem getElem?_set_getD {α : Type} (l : List α) (i : Nat) (a d : α)
    (h : i < l.length) : (l.set i a)[i]?.getD d = a := by
  simp [List.getElem?_set_self, h]

/-- C4 (as stated) is false on the code: `WithContext` on an error
whose context map is already allocated writes through the shared map,
so the context observable through the original value changes. -/
theorem C4_counterexample :
    Refs.Error.GetContext
      (Refs.Error.WithContext [[("a", Val.vint 1)]]
        { index := 1, message := "m", stack := "", context := some 0 }
        "b" (Val.vint 2)).1
      { index := 1, message := "m", stack := "", context := some 0 } "b" ≠
    Refs.Error.GetContext [[("a", Val.vint 1)]]
      { index := 1, message := "m", stack := "", context := some 0 }
      "b" := by
  decide

/-- C4 (amended): `WithContext(key, value)` returns an error whose
context maps `key` to `value` with all prior entries preserved,
allocating the map on first use; when the receiver's map is nil the
allocation happens on the returned copy and the original value is
unchanged, but when the map is already allocated the entry is written
into the shared map, so the original value (which still references the
same map) observes the same updated context as the returned value. -/
theorem C4_withContext_amended (heap : Refs.Heap) (e : Refs.Error)
    (key : String) (value : Val)
    (hwf : ∀ r, e.context = some r → r < heap.length) :
    Refs.Error.GetContext (Refs.Error.WithContext heap e key value).1
      (Refs.Error.WithContext heap e key value).2 key =
      (some value, true) ∧
    (∀ k, k ≠ key →
      Refs.Error.GetContext (Refs.Error.WithContext heap e key value).1
        (Refs.Error.WithContext heap e key value).2 k =
      Refs.Error.GetContext heap e k) ∧
    (e.context = none →
      ∀ k, Refs.Error.GetContext (Refs.Error.WithContext heap e key value).1
        e k = Refs.Error.GetContext heap e k) ∧
    (∀ r, e.context = some r →
      (Refs.Error.WithContext heap e key value).2 = e ∧
      ∀ k, Refs.Error.GetContext (Refs.Error.WithContext heap e key value).1
        e k =
        Refs.Error.GetContext (Refs.Error.WithContext heap e key value).1
          (Refs.Error.WithContext heap e key value).2 k) := by
  rcases e with ⟨ei, em, es, ectx⟩
  cases ectx with
  | none =>
      refine ⟨?_, ?_, ?_, ?_⟩
      · simp [Refs.Error.WithContext, Refs.Error.GetContext,
          getD_concat_length, ctxLookup]
      · intro k hk
        simp [Refs.Error.WithContext, Refs.Error.GetContext,
          getD_concat_length, ctxLookup,
          show ¬(key = k) from fun hh => hk hh.symm]
      · intro _ k
        simp [Refs.Error.WithContext, Refs.Error.GetContext]
      · intro r hr
        exact Option.noConfusion hr
  | some r =>
      have hrlen : r < heap.length := hwf r rfl
      refine ⟨?_, ?_, ?_, ?_⟩
      · simp [Refs.Error.WithContext, Refs.Error.GetContext,
          getElem?_set_getD _ _ _ _ hrlen, ctxLookup]
      · intro k hk
        simp [Refs.Error.WithContext, Refs.Error.GetContext,
          getElem?_set_getD _ _ _ _ hrlen, ctxLookup,
          show ¬(key = k) from fun hh => hk hh.symm]
      · intro hcon
        exact absurd hcon (by simp)
      · intro r' _
        exact ⟨rfl, fun k => rfl⟩

theorem C4_withContext_amended_witness :
    (∀ r : Nat, (some 0 : Option Nat) = some r → r < 1) ∧
    Refs.Error.GetContext
      (Refs.Error.WithContext [[("a", Val.vint 1)]]
        { index := 1, message := "m", stack := "", context := some 0 }
        "b" (Val.vint 2)).1
      (Refs.Error.WithContext [[("a", Val.vint 1)]]
        { index := 1, message := "m", stack := "", context := some 0 }
        "b" (Val.vint 2)).2 "b" = (some (Val.vint 2), true) :=
  ⟨fun r hr => by rw [← Option.some.inj hr]; decide,
   (C4_withContext_amended [[("a", Val.vint 1)]]
     { index := 1, message := "m", stack := "", context := some 0 }
     "b" (Val.vint 2)
     (fun r hr => by rw [← Option.some.inj hr]; decide)).1⟩

end Exc
